import Mathlib

/-!
Shallow embedding of the TinyRange range-string parser (src/index.js).

A JavaScript string is modelled as its list of characters (`List Char`);
JavaScript numbers produced by `parseFloat` on the digit substrings matched
by the token patterns are modelled as exact integers (`Int`): every literal
appearing in the development is far below 2^53, where IEEE doubles are exact.
The thrown `Error` is modelled by `Except String`, carrying the message text.
-/

namespace TinyRange

/-- Source `options.max` : `Math.pow(2, 32) - 1`. -/
def optionsMax : Int := 2 ^ 32 - 1

/-- Source `options.min` : `-max`. -/
def optionsMin : Int := -optionsMax

/-- The character class `\s` of the source regexes, restricted to the ASCII
whitespace characters (the only whitespace relevant to the development). -/
def isSpaceChar (c : Char) : Bool :=
  c == ' ' || c == '\t' || c == '\n' || c == '\r' || c == '\x0b' || c == '\x0c'

/-- One character of the class `[\s\d\-~,]` of `options.res.range`. -/
def permittedChar (c : Char) : Bool :=
  isSpaceChar c || c.isDigit || c == '-' || c == '~' || c == ','

/-- The coarse validation regex `options.res.range = /^[\s\d\-~,]+$/`:
at least one character, all from the permitted class. -/
def rangeTest (l : List Char) : Bool :=
  !l.isEmpty && l.all permittedChar

/-- Regex `\d+` : a nonempty run of decimal digits. -/
def digits1 (l : List Char) : Bool :=
  !l.isEmpty && l.all Char.isDigit

/-- Regex `options.res.number = /^\-?\d+$/`. -/
def numberTest (l : List Char) : Bool :=
  match l with
  | [] => false
  | c :: r => if c == '-' then digits1 r else digits1 (c :: r)

/-- Regex `options.res.min2num = /^~\-?\d+$/`. -/
def min2numTest (l : List Char) : Bool :=
  match l with
  | [] => false
  | c :: r => c == '~' && numberTest r

/-- Regex `options.res.num2max = /^\-?\d+~$/`. -/
def num2maxTest (l : List Char) : Bool :=
  (l.getLastD ' ' == '~') && numberTest l.dropLast

/-- Models `String.prototype.split` on a single separator character:
`"a~b".split('~') = ["a","b"]`, `"".split(',') = [""]`. -/
def splitCh (c : Char) : List Char → List (List Char)
  | [] => [[]]
  | x :: xs =>
    match splitCh c xs with
    | [] => [[]]
    | y :: ys => if x == c then [] :: y :: ys else (x :: y) :: ys

/-- Regex `options.res.num2num = /^\-?\d+~\-?\d+$/` : exactly one `~`, a number
shape on each side. -/
def num2numTest (l : List Char) : Bool :=
  match splitCh '~' l with
  | [a, b] => numberTest a && numberTest b
  | _ => false

/-- Consume the optional leading `-` of the regex `\-?`. -/
def stripDash (l : List Char) : List Char :=
  match l with
  | [] => []
  | c :: r => if c == '-' then r else c :: r

/-- Regex `options.res.numdashnum = /^\-?\d+-\-?\d+$/` : optional minus, digits,
a dash, then a number shape.  Greedy `\d+` is exact maximal munch here
because the character after it in the pattern is a dash. -/
def numdashnumTest (l : List Char) : Bool :=
  let l1 := stripDash l
  let ds := l1.takeWhile Char.isDigit
  !ds.isEmpty &&
    (match l1.drop ds.length with
     | c :: r2 => c == '-' && numberTest r2
     | [] => false)

/-- Value of a digit run (`parseFloat` on an unsigned integer literal). -/
def digitsVal (l : List Char) : Nat :=
  l.foldl (fun a c => a * 10 + (c.toNat - 48)) 0

/-- Models `parseFloat` on the strings matched by the token patterns: an optional
leading `-`, then decimal digits.  Call sites only ever pass strings of that
shape, where this is the exact value `parseFloat` returns. -/
def parseNum (l : List Char) : Int :=
  match l with
  | [] => 0
  | c :: r => if c == '-' then -(digitsVal r : Int) else (digitsVal (c :: r) : Int)

/-- Source `TinyRange.parser.number`. -/
def parser_number (s : List Char) : Int × Int :=
  let d := parseNum s
  (d, d)

/-- Source `TinyRange.parser.min2num` : `[opts.min, parseFloat(s.substr(1))]`. -/
def parser_min2num (mn : Int) (s : List Char) : Int × Int :=
  (mn, parseNum (s.drop 1))

/-- Source `TinyRange.parser.num2max` : `[parseFloat(s.slice(0, -1)), opts.max]`. -/
def parser_num2max (mx : Int) (s : List Char) : Int × Int :=
  (parseNum s.dropLast, mx)

/-- Source `TinyRange.parser.num2num` : split on `~`, parse both parts, reverse the
pair when the first exceeds the second.  The matched shape guarantees the
split has exactly two parts; the final arm is unreachable there. -/
def parser_num2num (s : List Char) : Int × Int :=
  match (splitCh '~' s).map parseNum with
  | a :: b :: _ => if a > b then (b, a) else (a, b)
  | _ => (0, 0)

/-- Models `String.prototype.indexOf(c)` : position of the first occurrence, or the
length of the list when absent (the shape guarantee makes the absent case
unreachable at the call site). -/
def idxOf (c : Char) : List Char → Nat
  | [] => 0
  | x :: xs => if x == c then 0 else idxOf c xs + 1

/-- Models `s.indexOf("-", 1)` : first dash at position at least 1. -/
def idxFrom1 (c : Char) : List Char → Nat
  | [] => 0
  | _ :: xs => idxOf c xs + 1

/-- Source `TinyRange.parser.numdashnum` : split at the first dash at position
at least 1, parse the two sides, reverse the pair when out of order. -/
def parser_numdashnum (s : List Char) : Int × Int :=
  let d := idxFrom1 '-' s
  let a := parseNum (s.take d)
  let b := parseNum (s.drop (d + 1))
  if a > b then (b, a) else (a, b)

/-- The per-token dispatch of `parse` : the five patterns are tried in the
fixed order `number, min2num, num2max, num2num, numdashnum`; the first match
selects the parser, no match leaves `ret` null. -/
def convertToken (mn mx : Int) (s : List Char) : Option (Int × Int) :=
  if numberTest s then some (parser_number s)
  else if min2numTest s then some (parser_min2num mn s)
  else if num2maxTest s then some (parser_num2max mx s)
  else if num2numTest s then some (parser_num2num s)
  else if numdashnumTest s then some (parser_numdashnum s)
  else none

/-- Source `str.replace(opts.res.blank, '')` : delete every whitespace character. -/
def removeBlanks (l : List Char) : List Char :=
  l.filter (fun c => !isSpaceChar c)

/-- The comma-separated tokens of the blank-stripped input; zero-length
segments are skipped by the `forEach` callback. -/
def tokensOf (l : List Char) : List (List Char) :=
  (splitCh ',' (removeBlanks l)).filter (fun t => !t.isEmpty)

/-- The interval list `rg` accumulated by `parse` before sorting. -/
def intervalsOf (mn mx : Int) (l : List Char) : List (Int × Int) :=
  (tokensOf l).filterMap (convertToken mn mx)

/-- Comparison used by `rg.sort(function(r1, r2){ return r1[0] - r2[0]; })`. -/
def lowLE (a b : Int × Int) : Prop := a.1 ≤ b.1

instance : DecidableRel lowLE := fun a b => inferInstanceAs (Decidable (a.1 ≤ b.1))

instance : IsTotal (Int × Int) lowLE := ⟨fun a b => Int.le_total a.1 b.1⟩

instance : IsTrans (Int × Int) lowLE := ⟨fun _ _ _ h1 h2 => le_trans h1 h2⟩

/-- Models `Array.prototype.sort` with the comparator above: a stable ascending
sort by the low bound, modelled by stable insertion sort (the output of a
stable sort is uniquely determined by comparator and input order). -/
def sortByLow (l : List (Int × Int)) : List (Int × Int) :=
  List.insertionSort lowLE l

/-- The merge loop of `TinyRange.prototype._merge` on the sorted list, with
`cur` the interval at the current surviving index `n` : a following interval
whose low exceeds `cur`'s high plus one starts a new group, any other is
absorbed by raising `cur`'s high to the maximum of the two. -/
def mergeRun : (Int × Int) → List (Int × Int) → List (Int × Int)
  | cur, [] => [cur]
  | cur, y :: ys =>
    if y.1 > cur.2 + 1 then cur :: mergeRun y ys
    else mergeRun (cur.1, max cur.2 y.2) ys

/-- Source `TinyRange.prototype._merge` before output wrapping. -/
def mergeAll : List (Int × Int) → List (Int × Int)
  | [] => []
  | x :: xs => mergeRun x xs

/-- One element of the value returned by `parse` : a bare scalar or a
two-element range array. -/
inductive Out where
  | scalar : Int → Out
  | range : Int → Int → Out
deriving DecidableEq, Repr

/-- The output wrapping of `_merge` : `r[0] == r[1] ? r[0] : r`. -/
def wrapOne (p : Int × Int) : Out :=
  if p.1 = p.2 then Out.scalar p.1 else Out.range p.1 p.2

/-- The output array built by the final loop of `_merge`. -/
def wrapOut (l : List (Int × Int)) : List Out :=
  l.map wrapOne

/-- Low bound of an output element (a scalar `v` stands for `(v, v)`). -/
def oLow : Out → Int
  | Out.scalar v => v
  | Out.range lo _ => lo

/-- High bound of an output element. -/
def oHigh : Out → Int
  | Out.scalar v => v
  | Out.range _ hi => hi

/-- Source `TinyRange.prototype.parse` over a character list, for the given
configured bounds: validate, tokenize, convert, then sort and merge unless
no interval was produced. -/
def parseChars (mn mx : Int) (str : List Char) : Except String (List Out) :=
  if rangeTest str then
    if (intervalsOf mn mx str).isEmpty then Except.ok []
    else Except.ok (wrapOut (mergeAll (sortByLow (intervalsOf mn mx str))))
  else Except.error "Can not parse an invalid string."

/-- Models `new TinyRange().parse(str)` with the default options. -/
def parse (str : String) : Except String (List Out) :=
  parseChars optionsMin optionsMax str.data

/-- The set of integers covered by a list of intervals. -/
def covers (x : Int) (l : List (Int × Int)) : Prop :=
  ∃ p ∈ l, p.1 ≤ x ∧ x ≤ p.2

/-- The normal-form relation between consecutive intervals: ascending lows
and a gap of at least one between the first high and the second low. -/
def gapR (a b : Int × Int) : Prop := a.1 ≤ b.1 ∧ a.2 + 1 < b.1

/-- Relation `gapR` on wrapped output elements. -/
def gapOut (a b : Out) : Prop := oLow a ≤ oLow b ∧ oHigh a + 1 < oLow b

instance : IsTrans (Int × Int) gapR :=
  ⟨fun _ _ _ h1 h2 => ⟨le_trans h1.1 h2.1, lt_of_lt_of_le h1.2 h2.1⟩⟩

instance : DecidableRel gapR := fun a b =>
  inferInstanceAs (Decidable (a.1 ≤ b.1 ∧ a.2 + 1 < b.1))

instance : DecidableRel gapOut := fun a b =>
  inferInstanceAs (Decidable (oLow a ≤ oLow b ∧ oHigh a + 1 < oLow b))

end TinyRange

namespace TinyRange

/-- The head of a merge group keeps the low bound of its starting interval. -/
theorem mergeRun_first (ys : List (Int × Int)) (cur : Int × Int) :
    ∃ h t, mergeRun cur ys = (cur.1, h) :: t := by
  induction ys generalizing cur with
  | nil => exact ⟨cur.2, [], rfl⟩
  | cons y ys ih =>
    by_cases hc : y.1 > cur.2 + 1
    · exact ⟨cur.2, mergeRun y ys, by simp only [mergeRun, if_pos hc]⟩
    · obtain ⟨h, t, ht⟩ := ih (cur.1, max cur.2 y.2)
      exact ⟨h, t, by simp only [mergeRun, if_neg hc]; exact ht⟩

/-- On a list sorted by low bound, the merge loop emits groups whose lows
ascend and which are separated by a gap of at least one. -/
theorem mergeRun_chain (ys : List (Int × Int)) (cur : Int × Int)
    (hs : List.Pairwise lowLE (cur :: ys)) :
    List.Chain' gapR (mergeRun cur ys) := by
  induction ys generalizing cur with
  | nil => simp [mergeRun]
  | cons y ys ih =>
    obtain ⟨hcur, hys⟩ := List.pairwise_cons.mp hs
    by_cases hc : y.1 > cur.2 + 1
    · simp only [mergeRun, if_pos hc]
      obtain ⟨h, t, ht⟩ := mergeRun_first ys y
      rw [ht, List.chain'_cons]
      refine ⟨⟨hcur y (List.mem_cons_self y ys), hc⟩, ?_⟩
      rw [← ht]
      exact ih y hys
    · simp only [mergeRun, if_neg hc]
      apply ih
      refine List.pairwise_cons.mpr ⟨?_, (List.pairwise_cons.mp hys).2⟩
      intro z hz
      exact hcur z (List.mem_cons_of_mem y hz)

/-- The `_merge` of a list sorted by low bound is pairwise gap-separated. -/
theorem mergeAll_pairwise (l : List (Int × Int)) (hs : List.Pairwise lowLE l) :
    List.Pairwise gapR (mergeAll l) := by
  cases l with
  | nil => simp [mergeAll]
  | cons x xs => exact List.chain'_iff_pairwise.mp (mergeRun_chain xs x hs)

/-- The sort step sorts by low bound. -/
theorem sortByLow_sorted (l : List (Int × Int)) :
    List.Pairwise lowLE (sortByLow l) :=
  List.sorted_insertionSort lowLE l

/-- The sort step permutes its input. -/
theorem sortByLow_perm (l : List (Int × Int)) :
    List.Perm (sortByLow l) l :=
  List.perm_insertionSort lowLE l

/-- Wrapping keeps the low bound. -/
theorem oLow_wrapOne (p : Int × Int) : oLow (wrapOne p) = p.1 := by
  unfold wrapOne
  by_cases h : p.1 = p.2 <;> simp [h, oLow]

/-- Wrapping keeps the high bound. -/
theorem oHigh_wrapOne (p : Int × Int) : oHigh (wrapOne p) = p.2 := by
  unfold wrapOne
  by_cases h : p.1 = p.2 <;> simp [h, oHigh]

/-- The output wrapping preserves the sorted-and-gap-separated invariant. -/
theorem wrapOut_pairwise {l : List (Int × Int)} (h : List.Pairwise gapR l) :
    List.Pairwise gapOut (wrapOut l) := by
  unfold wrapOut
  rw [List.pairwise_map]
  refine h.imp ?_
  intro a b hab
  refine ⟨?_, ?_⟩
  · rw [oLow_wrapOne, oLow_wrapOne]; exact hab.1
  · rw [oHigh_wrapOne, oLow_wrapOne]; exact hab.2

/-- C4: for every input string accepted without error, the returned
IntervalSet is sorted ascending by low bound and contains no two intervals
`a`, `b` (`a` before `b`) with `b.low ≤ a.high + 1`. -/
theorem parse_sorted_disjoint (s : String) (out : List Out)
    (h : parse s = Except.ok out) : List.Pairwise gapOut out := by
  unfold parse parseChars at h
  by_cases hr : rangeTest s.data
  · rw [if_pos hr] at h
    by_cases he : (intervalsOf optionsMin optionsMax s.data).isEmpty
    · rw [if_pos he] at h
      injection h with h
      rw [← h]
      exact List.Pairwise.nil
    · rw [if_neg he] at h
      injection h with h
      rw [← h]
      exact wrapOut_pairwise (mergeAll_pairwise _ (sortByLow_sorted _))
  · rw [if_neg hr] at h
    exact Except.noConfusion h

/-- Witness for C4 at the input `"1,3,4"`. -/
theorem parse_sorted_disjoint_witness :
    parse "1,3,4" = Except.ok [Out.scalar 1, Out.range 3 4] ∧
    List.Pairwise gapOut [Out.scalar 1, Out.range 3 4] :=
  ⟨rfl, parse_sorted_disjoint "1,3,4" [Out.scalar 1, Out.range 3 4] rfl⟩

/-- Unfolding `covers` over a cons cell. -/
theorem covers_cons (x : Int) (a : Int × Int) (l : List (Int × Int)) :
    covers x (a :: l) ↔ (a.1 ≤ x ∧ x ≤ a.2) ∨ covers x l := by
  constructor
  · rintro ⟨p, hp, hx⟩
    rcases List.mem_cons.mp hp with h | h
    · exact Or.inl (h ▸ hx)
    · exact Or.inr ⟨p, h, hx⟩
  · rintro (h | ⟨p, hp, hx⟩)
    · exact ⟨a, List.mem_cons_self a l, h⟩
    · exact ⟨p, List.mem_cons_of_mem a hp, hx⟩

/-- On a list sorted by low bound the merge loop covers exactly the same
integers as its input. -/
theorem mergeRun_covers (ys : List (Int × Int)) (cur : Int × Int)
    (hs : List.Pairwise lowLE (cur :: ys)) (x : Int) :
    covers x (mergeRun cur ys) ↔ covers x (cur :: ys) := by
  induction ys generalizing cur with
  | nil => simp [mergeRun]
  | cons y ys ih =>
    obtain ⟨hcur, hys⟩ := List.pairwise_cons.mp hs
    by_cases hc : y.1 > cur.2 + 1
    · simp only [mergeRun, if_pos hc]
      rw [covers_cons, ih y hys, covers_cons, covers_cons, covers_cons]
    · simp only [mergeRun, if_neg hc]
      have hpw : List.Pairwise lowLE ((cur.1, max cur.2 y.2) :: ys) := by
        refine List.pairwise_cons.mpr ⟨?_, (List.pairwise_cons.mp hys).2⟩
        intro z hz
        exact hcur z (List.mem_cons_of_mem y hz)
      rw [ih _ hpw, covers_cons, covers_cons, covers_cons]
      have hcy : lowLE cur y := hcur y (List.mem_cons_self y ys)
      have hym : ¬ y.1 > cur.2 + 1 := hc
      unfold lowLE at hcy
      constructor
      · rintro (⟨h1, h2⟩ | hC)
        · rcases le_or_lt x cur.2 with h3 | h3
          · exact Or.inl ⟨h1, h3⟩
          · exact Or.inr (Or.inl ⟨by omega, by omega⟩)
        · exact Or.inr (Or.inr hC)
      · rintro (⟨h1, h2⟩ | ⟨h1, h2⟩ | hC)
        · exact Or.inl ⟨h1, by omega⟩
        · exact Or.inl ⟨by omega, by omega⟩
        · exact Or.inr hC

/-- The merge loop preserves well-formedness of the intervals. -/
theorem mergeRun_wf (ys : List (Int × Int)) (cur : Int × Int)
    (h1 : cur.1 ≤ cur.2) (h2 : ∀ p ∈ ys, p.1 ≤ p.2) :
    ∀ p ∈ mergeRun cur ys, p.1 ≤ p.2 := by
  induction ys generalizing cur with
  | nil => simpa [mergeRun] using h1
  | cons y ys ih =>
    by_cases hc : y.1 > cur.2 + 1
    · simp only [mergeRun, if_pos hc]
      intro p hp
      rcases List.mem_cons.mp hp with h | h
      · exact h ▸ h1
      · exact ih y (h2 y (List.mem_cons_self y ys))
          (fun q hq => h2 q (List.mem_cons_of_mem y hq)) p h
    · simp only [mergeRun, if_neg hc]
      exact ih (cur.1, max cur.2 y.2) (le_trans h1 (le_max_left _ _))
        (fun q hq => h2 q (List.mem_cons_of_mem y hq))

/-- The `_merge` of a sorted list covers exactly the integers of its input. -/
theorem mergeAll_covers (l : List (Int × Int)) (hs : List.Pairwise lowLE l)
    (x : Int) : covers x (mergeAll l) ↔ covers x l := by
  cases l with
  | nil => simp [mergeAll]
  | cons a l => exact mergeRun_covers l a hs x

/-- The `_merge` step preserves well-formedness of the intervals. -/
theorem mergeAll_wf (l : List (Int × Int)) (h : ∀ p ∈ l, p.1 ≤ p.2) :
    ∀ p ∈ mergeAll l, p.1 ≤ p.2 := by
  cases l with
  | nil => simp [mergeAll]
  | cons a l =>
    exact mergeRun_wf l a (h a (List.mem_cons_self a l))
      (fun q hq => h q (List.mem_cons_of_mem a hq))

/-- Coverage only depends on the multiset of intervals. -/
theorem covers_perm {l1 l2 : List (Int × Int)} (h : List.Perm l1 l2)
    (x : Int) : covers x l1 ↔ covers x l2 := by
  constructor
  · rintro ⟨p, hp, hx⟩
    exact ⟨p, h.mem_iff.mp hp, hx⟩
  · rintro ⟨p, hp, hx⟩
    exact ⟨p, h.mem_iff.mpr hp, hx⟩

/-- A sorted, gap-separated list of well-formed intervals is determined by
the set of integers it covers. -/
theorem canonical_unique (l1 : List (Int × Int)) :
    ∀ l2, List.Pairwise gapR l1 → List.Pairwise gapR l2 →
    (∀ p ∈ l1, p.1 ≤ p.2) → (∀ p ∈ l2, p.1 ≤ p.2) →
    (∀ x, covers x l1 ↔ covers x l2) → l1 = l2 := by
  induction l1 with
  | nil =>
    intro l2 _ _ _ hw2 hcov
    cases l2 with
    | nil => rfl
    | cons q t2 =>
      exfalso
      have cq : covers q.1 (q :: t2) :=
        ⟨q, List.mem_cons_self q t2, le_refl _, hw2 q (List.mem_cons_self q t2)⟩
      obtain ⟨p, hp, -⟩ := (hcov q.1).mpr cq
      exact List.not_mem_nil p hp
  | cons p t1 ih =>
    intro l2 h1 h2 hw1 hw2 hcov
    cases l2 with
    | nil =>
      exfalso
      have cp : covers p.1 (p :: t1) :=
        ⟨p, List.mem_cons_self p t1, le_refl _, hw1 p (List.mem_cons_self p t1)⟩
      obtain ⟨r, hr, -⟩ := (hcov p.1).mp cp
      exact List.not_mem_nil r hr
    | cons q t2 =>
      obtain ⟨hp1, ht1⟩ := List.pairwise_cons.mp h1
      obtain ⟨hq1, ht2⟩ := List.pairwise_cons.mp h2
      have hwp := hw1 p (List.mem_cons_self p t1)
      have hwq := hw2 q (List.mem_cons_self q t2)
      have e1 : p.1 = q.1 := by
        obtain ⟨r, hr, hr1, -⟩ := (hcov p.1).mp
          ⟨p, List.mem_cons_self p t1, le_refl _, hwp⟩
        obtain ⟨r', hr', hr1', -⟩ := (hcov q.1).mpr
          ⟨q, List.mem_cons_self q t2, le_refl _, hwq⟩
        have hqr : q.1 ≤ r.1 := by
          rcases List.mem_cons.mp hr with h | h
          · rw [h]
          · exact (hq1 r h).1
        have hpr : p.1 ≤ r'.1 := by
          rcases List.mem_cons.mp hr' with h | h
          · rw [h]
          · exact (hp1 r' h).1
        omega
      have e2 : p.2 = q.2 := by
        by_contra hne
        rcases lt_or_gt_of_ne hne with hlt | hgt
        · obtain ⟨r, hr, hr1, hr2⟩ := (hcov (p.2 + 1)).mpr
            ⟨q, List.mem_cons_self q t2, by omega, by omega⟩
          rcases List.mem_cons.mp hr with h | h
          · rw [h] at hr2; omega
          · have := (hp1 r h).2
            omega
        · obtain ⟨r, hr, hr1, hr2⟩ := (hcov (q.2 + 1)).mp
            ⟨p, List.mem_cons_self p t1, by omega, by omega⟩
          rcases List.mem_cons.mp hr with h | h
          · rw [h] at hr2; omega
          · have := (hq1 r h).2
            omega
      have epq : p = q := Prod.ext e1 e2
      have hcovt : ∀ x, covers x t1 ↔ covers x t2 := by
        intro x
        constructor
        · rintro ⟨r, hr, hr1, hr2⟩
          have hgap := (hp1 r hr).2
          obtain ⟨r', hr', h1', h2'⟩ := (hcov x).mp
            ⟨r, List.mem_cons_of_mem p hr, hr1, hr2⟩
          rcases List.mem_cons.mp hr' with h | h
          · exfalso
            rw [h] at h2'
            omega
          · exact ⟨r', h, h1', h2'⟩
        · rintro ⟨r, hr, hr1, hr2⟩
          have hgap := (hq1 r hr).2
          obtain ⟨r', hr', h1', h2'⟩ := (hcov x).mpr
            ⟨r, List.mem_cons_of_mem q hr, hr1, hr2⟩
          rcases List.mem_cons.mp hr' with h | h
          · exfalso
            rw [h] at h2'
            omega
          · exact ⟨r', h, h1', h2'⟩
      rw [epq, ih t2 ht1 ht2
        (fun z hz => hw1 z (List.mem_cons_of_mem p hz))
        (fun z hz => hw2 z (List.mem_cons_of_mem q hz)) hcovt]

/-- Sorting then merging is invariant under permutation of well-formed
interval lists. -/
theorem merged_eq_of_perm (rg1 rg2 : List (Int × Int))
    (hperm : List.Perm rg1 rg2) (hwf : ∀ p ∈ rg1, p.1 ≤ p.2) :
    mergeAll (sortByLow rg1) = mergeAll (sortByLow rg2) := by
  have hwf2 : ∀ p ∈ rg2, p.1 ≤ p.2 := fun p hp => hwf p (hperm.mem_iff.mpr hp)
  have hwfs1 : ∀ p ∈ sortByLow rg1, p.1 ≤ p.2 :=
    fun p hp => hwf p ((sortByLow_perm rg1).mem_iff.mp hp)
  have hwfs2 : ∀ p ∈ sortByLow rg2, p.1 ≤ p.2 :=
    fun p hp => hwf2 p ((sortByLow_perm rg2).mem_iff.mp hp)
  apply canonical_unique
  · exact mergeAll_pairwise _ (sortByLow_sorted _)
  · exact mergeAll_pairwise _ (sortByLow_sorted _)
  · exact mergeAll_wf _ hwfs1
  · exact mergeAll_wf _ hwfs2
  · intro x
    rw [mergeAll_covers _ (sortByLow_sorted _) x,
        mergeAll_covers _ (sortByLow_sorted _) x]
    exact covers_perm (((sortByLow_perm rg1).trans hperm).trans
      (sortByLow_perm rg2).symm) x

/-- C5 (counterexample): two inputs whose comma-separated tokens are
permutations of one another, both accepted without error, whose results
differ.  The out-of-bounds numbers make both converted intervals start at
`options.min` with the high below the low, so the stable sort keeps the
input order and the merge loop keeps both intervals as given. -/
theorem parse_perm_counterexample :
    parse "~-5000000000,~-6000000000" =
      Except.ok [Out.range (-4294967295) (-5000000000),
                 Out.range (-4294967295) (-6000000000)] ∧
    parse "~-6000000000,~-5000000000" =
      Except.ok [Out.range (-4294967295) (-6000000000),
                 Out.range (-4294967295) (-5000000000)] ∧
    List.Perm (tokensOf "~-5000000000,~-6000000000".data)
      (tokensOf "~-6000000000,~-5000000000".data) ∧
    [Out.range (-4294967295) (-5000000000),
     Out.range (-4294967295) (-6000000000)] ≠
    [Out.range (-4294967295) (-6000000000),
     Out.range (-4294967295) (-5000000000)] :=
  ⟨rfl, rfl, by decide, by decide⟩

/-- C5 (amended): permuting the comma-separated tokens of a valid input
yields an identical result from `parse`, provided every interval converted
from the tokens is well-formed (low ≤ high) — which holds in particular
whenever every number in the input lies within the configured bounds. -/
theorem parse_perm_tokens_wf (s1 s2 : String)
    (hv1 : rangeTest s1.data = true) (hv2 : rangeTest s2.data = true)
    (hperm : List.Perm (tokensOf s1.data) (tokensOf s2.data))
    (hwf : ∀ p ∈ intervalsOf optionsMin optionsMax s1.data, p.1 ≤ p.2) :
    parse s1 = parse s2 := by
  have hip : List.Perm (intervalsOf optionsMin optionsMax s1.data)
      (intervalsOf optionsMin optionsMax s2.data) :=
    hperm.filterMap (convertToken optionsMin optionsMax)
  unfold parse parseChars
  rw [if_pos hv1, if_pos hv2]
  by_cases he : (intervalsOf optionsMin optionsMax s1.data).isEmpty
  · have he2 : (intervalsOf optionsMin optionsMax s2.data).isEmpty := by
      rw [List.isEmpty_iff] at he ⊢
      exact (he ▸ hip).symm.eq_nil
    rw [if_pos he, if_pos he2]
  · have he2 : ¬ (intervalsOf optionsMin optionsMax s2.data).isEmpty := by
      intro hco
      apply he
      rw [List.isEmpty_iff] at hco ⊢
      exact (hco ▸ hip).eq_nil
    rw [if_neg he, if_neg he2]
    rw [merged_eq_of_perm _ _ hip hwf]

/-- Witness for the amended C5 at the inputs `"1,3"` and `"3,1"`. -/
theorem parse_perm_tokens_wf_witness : parse "1,3" = parse "3,1" :=
  parse_perm_tokens_wf "1,3" "3,1" rfl rfl (by decide) (by decide)

/-- C1 (counterexample): `parse ""` does not return the empty IntervalSet. -/
theorem parse_empty_counterexample : parse "" ≠ Except.ok [] := fun h =>
  Except.noConfusion
    (show Except.error "Can not parse an invalid string."
        = Except.ok ([] : List Out) from h)

/-- C1 (amended): `parse ""` raises the Malformed Input error, because the
validation regex requires at least one character, which the empty string
fails. -/
theorem parse_empty_is_error :
    parse "" = Except.error "Can not parse an invalid string." := rfl

/-- C2 (counterexample): the empty string contains no character outside the
permitted alphabet, yet `parse` raises the Malformed Input error on it. -/
theorem parse_error_iff_counterexample :
    parse "" = Except.error "Can not parse an invalid string." ∧
    "".data.all permittedChar = true :=
  ⟨rfl, rfl⟩

/-- C2 (amended): `parse` raises the Malformed Input error exactly when the
raw input is empty or contains a character outside the permitted alphabet
(digits, whitespace, dash, tilde, comma); no other condition aborts the
parse, and the error case returns no partial result. -/
theorem parse_error_iff (s : String) :
    (∃ e, parse s = Except.error e) ↔
      (s.data = [] ∨ ∃ c ∈ s.data, permittedChar c = false) := by
  unfold parse parseChars
  by_cases hr : rangeTest s.data
  · rw [if_pos hr]
    have hne : ¬ (s.data = [] ∨ ∃ c ∈ s.data, permittedChar c = false) := by
      unfold rangeTest at hr
      rw [Bool.and_eq_true, List.all_eq_true] at hr
      rintro (h | ⟨c, hc, hcf⟩)
      · rw [h] at hr
        exact Bool.noConfusion hr.1
      · rw [hr.2 c hc] at hcf
        exact Bool.noConfusion hcf
    refine iff_of_false ?_ hne
    rintro ⟨e, he⟩
    by_cases h2 : (intervalsOf optionsMin optionsMax s.data).isEmpty
    · rw [if_pos h2] at he
      exact Except.noConfusion he
    · rw [if_neg h2] at he
      exact Except.noConfusion he
  · rw [if_neg hr]
    refine iff_of_true ⟨_, rfl⟩ ?_
    unfold rangeTest at hr
    rw [Bool.and_eq_true, List.all_eq_true] at hr
    push_neg at hr
    by_cases hnil : s.data = []
    · exact Or.inl hnil
    · refine Or.inr ?_
      have h1 : (!s.data.isEmpty) = true := by
        simp [List.isEmpty_iff, hnil]
      obtain ⟨c, hc, hcf⟩ := hr h1
      exact ⟨c, hc, Bool.not_eq_true _ ▸ hcf⟩

/-- The `num2num` parser always yields an ascending pair. -/
theorem parser_num2num_wf (s : List Char) :
    (parser_num2num s).1 ≤ (parser_num2num s).2 := by
  cases hL : (splitCh '~' s).map parseNum with
  | nil => simp [parser_num2num, hL]
  | cons a rest =>
    cases rest with
    | nil => simp [parser_num2num, hL]
    | cons b r =>
      simp only [parser_num2num, hL]
      split_ifs with hab <;> simp <;> omega

/-- The `numdashnum` parser always yields an ascending pair. -/
theorem parser_numdashnum_wf (s : List Char) :
    (parser_numdashnum s).1 ≤ (parser_numdashnum s).2 := by
  simp only [parser_numdashnum]
  split_ifs with hab <;> simp <;> omega

/-- C3 (counterexample): the min2num token `~-4294967296` passes its
pattern and converts to `(options.min, -4294967296)`, whose low bound
`-4294967295` exceeds its high bound. -/
theorem min2num_wf_counterexample :
    convertToken optionsMin optionsMax "~-4294967296".data
      = some (-4294967295, -4294967296) ∧
    ¬ ((-4294967295 : Int) ≤ -4294967296) :=
  ⟨rfl, by decide⟩

/-- C3 (amended): an interval produced by converting a token satisfies
low ≤ high provided its high bound is at least `options.min` and its low
bound is at most `options.max` — which holds whenever the number in a
`min2num` or `num2max` token stays within the configured sentinel bounds;
the `number`, `num2num` and `numdashnum` shapes need no side condition. -/
theorem convert_wf_of_bounded (s : List Char) (p : Int × Int)
    (h : convertToken optionsMin optionsMax s = some p)
    (h1 : optionsMin ≤ p.2) (h2 : p.1 ≤ optionsMax) : p.1 ≤ p.2 := by
  unfold convertToken at h
  split_ifs at h
  · injection h with h
    subst h
    simp [parser_number]
  · injection h with h
    subst h
    simp only [parser_min2num] at h1 ⊢
    exact h1
  · injection h with h
    subst h
    simp only [parser_num2max] at h2 ⊢
    exact h2
  · injection h with h
    subst h
    exact parser_num2num_wf s
  · injection h with h
    subst h
    exact parser_numdashnum_wf s

/-- Witness for the amended C3 at the token `5~2`. -/
theorem convert_wf_of_bounded_witness :
    convertToken optionsMin optionsMax "5~2".data = some (2, 5) ∧
    (2 : Int) ≤ 5 :=
  ⟨rfl, convert_wf_of_bounded "5~2".data (2, 5) rfl (by decide) (by decide)⟩

/-- C6: a `num2num` token whose first number exceeds the second converts to
the swapped, ascending pair; in particular `parse "5~2"` returns `[[2,5]]`. -/
theorem num2num_swap_spec :
    (∀ s a b, splitCh '~' s = [a, b] → parseNum b < parseNum a →
      parser_num2num s = (parseNum b, parseNum a)) ∧
    parse "5~2" = Except.ok [Out.range 2 5] := by
  refine ⟨?_, rfl⟩
  intro s a b hsplit hlt
  simp only [parser_num2num, hsplit, List.map]
  rw [if_pos hlt]

/-- Witness for C6 at the token `5~2`. -/
theorem num2num_swap_spec_witness : parser_num2num "5~2".data = (2, 5) :=
  (num2num_swap_spec.1 "5~2".data "5".data "2".data rfl (by decide)).trans rfl

/-- A nonempty all-digit list has a digit as its last element. -/
theorem digits1_getLastD (l : List Char) (d : Char) (h : digits1 l = true) :
    (l.getLastD d).isDigit = true := by
  induction l generalizing d with
  | nil => exact absurd h (by decide)
  | cons c r ih =>
    unfold digits1 at h
    rw [Bool.and_eq_true, List.all_eq_true] at h
    rw [List.getLastD_cons]
    cases r with
    | nil => exact h.2 c (List.mem_cons_self c [])
    | cons c2 r2 =>
      apply ih
      unfold digits1
      rw [Bool.and_eq_true, List.all_eq_true]
      exact ⟨rfl, fun x hx => h.2 x (List.mem_cons_of_mem c hx)⟩

/-- A string matching the `number` pattern ends in a digit. -/
theorem numberTest_getLastD (l : List Char) (h : numberTest l = true) :
    (l.getLastD ' ').isDigit = true := by
  cases l with
  | nil => exact Bool.noConfusion h
  | cons c r =>
    simp only [numberTest] at h
    split at h
    · rw [List.getLastD_cons]
      exact digits1_getLastD r c h
    · exact digits1_getLastD (c :: r) ' ' h

/-- No string starting with a tilde matches the `number` pattern. -/
theorem numberTest_tilde_head (r : List Char) : numberTest ('~' :: r) = false := by
  simp [numberTest, digits1]

/-- The `num2max` pattern is disjoint from the `number` pattern. -/
theorem num2maxTest_not_number (l : List Char) (h : num2maxTest l = true) :
    numberTest l = false := by
  by_contra hn
  have hn' : numberTest l = true := by
    revert hn
    cases numberTest l <;> simp
  have hd := numberTest_getLastD l hn'
  unfold num2maxTest at h
  rw [Bool.and_eq_true] at h
  have hlast : l.getLastD ' ' = '~' := by simpa using h.1
  rw [hlast] at hd
  exact absurd hd (by decide)

/-- The `num2max` pattern is disjoint from the `min2num` pattern. -/
theorem num2maxTest_not_min2num (l : List Char) (h : num2maxTest l = true) :
    min2numTest l = false := by
  unfold min2numTest
  cases l with
  | nil => rfl
  | cons c r =>
    by_cases hc : c = '~'
    · subst hc
      exfalso
      unfold num2maxTest at h
      rw [Bool.and_eq_true] at h
      have h2 := h.2
      cases r with
      | nil => exact absurd h2 (by decide)
      | cons c2 r2 =>
        rw [List.dropLast_cons₂, numberTest_tilde_head] at h2
        exact Bool.noConfusion h2
    · simp [hc]

/-- C7: with the default bounds `min = -(2^32 - 1)` and `max = 2^32 - 1`,
a `~n` token converts to `(min, n)` and an `n~` token converts to
`(n, max)`; in particular `parse "~3,5~"` returns the two ranges
`[min, 3]` and `[5, max]`, left unmerged. -/
theorem default_bounds_spec :
    optionsMin = -(2 ^ 32 - 1) ∧ optionsMax = 2 ^ 32 - 1 ∧
    (∀ s, min2numTest s = true →
      convertToken optionsMin optionsMax s
        = some (optionsMin, parseNum (s.drop 1))) ∧
    (∀ s, num2maxTest s = true →
      convertToken optionsMin optionsMax s
        = some (parseNum s.dropLast, optionsMax)) ∧
    parse "~3,5~" = Except.ok [Out.range optionsMin 3, Out.range 5 optionsMax] := by
  refine ⟨rfl, rfl, ?_, ?_, rfl⟩
  · intro s hm
    have hnum : numberTest s = false := by
      cases s with
      | nil => exact Bool.noConfusion hm
      | cons c r =>
        unfold min2numTest at hm
        rw [Bool.and_eq_true] at hm
        have hc : c = '~' := by simpa using hm.1
        rw [hc]
        exact numberTest_tilde_head r
    simp [convertToken, hnum, hm, parser_min2num]
  · intro s hm
    have h1 := num2maxTest_not_number s hm
    have h2 := num2maxTest_not_min2num s hm
    simp [convertToken, h1, h2, hm, parser_num2max]

/-- Witness for C7 at the tokens `~3` and `5~`. -/
theorem default_bounds_spec_witness :
    convertToken optionsMin optionsMax "~3".data = some (optionsMin, 3) ∧
    convertToken optionsMin optionsMax "5~".data = some (5, optionsMax) :=
  ⟨(default_bounds_spec.2.2.1 "~3".data rfl).trans rfl,
   (default_bounds_spec.2.2.2.1 "5~".data rfl).trans rfl⟩

/-- C8: an interval exactly adjacent to the current one (low equal to the
current high plus one) is absorbed by the merge loop, and a degenerate
interval `(v, v)` is emitted as the bare scalar `v`; in particular
`parse "1,3,4"` returns `[1, [3,4]]`. -/
theorem merge_adjacent_collapse_spec :
    (∀ (cur y : Int × Int) (ys : List (Int × Int)), y.1 = cur.2 + 1 →
      mergeRun cur (y :: ys) = mergeRun (cur.1, max cur.2 y.2) ys) ∧
    (∀ v : Int, wrapOne (v, v) = Out.scalar v) ∧
    parse "1,3,4" = Except.ok [Out.scalar 1, Out.range 3 4] := by
  refine ⟨?_, ?_, rfl⟩
  · intro cur y ys hadj
    simp only [mergeRun]
    rw [if_neg (by omega)]
  · intro v
    simp [wrapOne]

/-- Witness for C8 with the adjacent intervals `(3,3)` and `(4,4)`. -/
theorem merge_adjacent_collapse_spec_witness :
    mergeRun (3, 3) [(4, 4)] = [(3, 4)] ∧
    wrapOne ((3 : Int), (3 : Int)) = Out.scalar 3 := by
  refine ⟨?_, merge_adjacent_collapse_spec.2.1 3⟩
  rw [merge_adjacent_collapse_spec.1 (3, 3) (4, 4) [] (by decide)]
  decide

/-- C9: a token that matches none of the five patterns contributes nothing
and raises nothing: the dispatch returns null for it and the remaining
tokens are parsed normally, as in `parse "1,~,3"`. -/
theorem skip_unmatched_spec :
    (∀ t mn mx, numberTest t = false → min2numTest t = false →
      num2maxTest t = false → num2numTest t = false →
      numdashnumTest t = false → convertToken mn mx t = none) ∧
    parse "1,~,3" = Except.ok [Out.scalar 1, Out.scalar 3] := by
  refine ⟨?_, rfl⟩
  intro t mn mx h1 h2 h3 h4 h5
  simp [convertToken, h1, h2, h3, h4, h5]

/-- Witness for C9 at the lone-tilde token. -/
theorem skip_unmatched_spec_witness :
    convertToken optionsMin optionsMax "~".data = none :=
  skip_unmatched_spec.1 "~".data optionsMin optionsMax rfl rfl rfl rfl rfl

/-- A digit run followed by a dash is the maximal digit prefix. -/
theorem takeWhile_digits_append (as rest : List Char)
    (h : as.all Char.isDigit = true) :
    (as ++ '-' :: rest).takeWhile Char.isDigit = as := by
  induction as with
  | nil => rw [List.nil_append, List.takeWhile_cons, if_neg (by decide)]
  | cons a as ih =>
    rw [List.all_cons, Bool.and_eq_true] at h
    rw [List.cons_append, List.takeWhile_cons, if_pos h.1, ih h.2]

/-- The first dash after a digit run sits right after the run. -/
theorem idxOf_digits_append (as rest : List Char)
    (h : as.all Char.isDigit = true) :
    idxOf '-' (as ++ '-' :: rest) = as.length := by
  induction as with
  | nil => simp [idxOf]
  | cons a as ih =>
    rw [List.all_cons, Bool.and_eq_true] at h
    have ha : (a == '-') = false := by
      rw [beq_eq_false_iff_ne]
      intro he
      rw [he] at h
      exact absurd h.1 (by decide)
    simp [idxOf, ha, ih h.2]

/-- An all-digit nonempty string matches the `number` pattern. -/
theorem numberTest_digits (l : List Char) (hne : l ≠ [])
    (h : l.all Char.isDigit = true) : numberTest l = true := by
  cases l with
  | nil => exact absurd rfl hne
  | cons c r =>
    rw [List.all_cons, Bool.and_eq_true] at h
    have hc : (c == '-') = false := by
      rw [beq_eq_false_iff_ne]
      intro he
      rw [he] at h
      exact absurd h.1 (by decide)
    simp [numberTest, hc, digits1, h.1, h.2]

/-- Value of `parseFloat` on an all-digit string is its digit value. -/
theorem parseNum_digits (l : List Char) (hne : l ≠ [])
    (h : l.all Char.isDigit = true) : parseNum l = (digitsVal l : Int) := by
  cases l with
  | nil => exact absurd rfl hne
  | cons c r =>
    rw [List.all_cons, Bool.and_eq_true] at h
    have hc : (c == '-') = false := by
      rw [beq_eq_false_iff_ne]
      intro he
      rw [he] at h
      exact absurd h.1 (by decide)
    simp [parseNum, hc]

/-- The default of `getLastD` is irrelevant on a nonempty list. -/
theorem getLastD_indep (l : List Char) (hne : l ≠ []) (x y : Char) :
    l.getLastD x = l.getLastD y := by
  cases l with
  | nil => exact absurd rfl hne
  | cons c r => rw [List.getLastD_cons, List.getLastD_cons]

/-- The last element of an append with nonempty right part. -/
theorem getLastD_append_right (l1 l2 : List Char) (hne : l2 ≠ []) :
    ∀ d, (l1 ++ l2).getLastD d = l2.getLastD d := by
  induction l1 with
  | nil => intro d; rfl
  | cons c l1 ih =>
    intro d
    rw [List.cons_append, List.getLastD_cons, ih c, getLastD_indep l2 hne c d]

/-- Splitting on an absent character yields the whole string. -/
theorem splitCh_not_mem (c : Char) (l : List Char) (h : c ∉ l) :
    splitCh c l = [l] := by
  induction l with
  | nil => rfl
  | cons x xs ih =>
    have hx : (x == c) = false := by
      rw [beq_eq_false_iff_ne]
      intro he
      exact h (he ▸ List.mem_cons_self x xs)
    simp [splitCh, ih (fun hm => h (List.mem_cons_of_mem x hm)), hx]

/-- The conditional swap of the two range parsers produces the ascending
pair of its two arguments. -/
theorem swap_pair_eq_min_max (a b : Int) :
    (if a > b then ((b, a) : Int × Int) else (a, b)) = (min a b, max a b) := by
  split_ifs with h <;> refine Prod.ext ?_ ?_ <;> simp <;> omega

/-- C10: a token made of digits, two consecutive dashes, then digits is
accepted by the `numdashnum` pattern; the separator is the first dash at
position at least 1, so `a--b` denotes the range from `a` to `-b`, swapped
into ascending order; in particular `parse "1--2"` returns `[[-2,1]]`. -/
theorem numdashnum_double_dash_spec :
    (∀ (as bs : List Char) (mn mx : Int), as ≠ [] → as.all Char.isDigit = true →
      bs ≠ [] → bs.all Char.isDigit = true →
      convertToken mn mx (as ++ '-' :: '-' :: bs) =
        some (min (digitsVal as : Int) (-(digitsVal bs : Int)),
              max (digitsVal as : Int) (-(digitsVal bs : Int)))) ∧
    parse "1--2" = Except.ok [Out.range (-2) 1] := by
  refine ⟨?_, rfl⟩
  intro as bs mn mx hane had hbne hbd
  obtain ⟨a, as', rfl⟩ : ∃ a as', as = a :: as' := by
    cases as with
    | nil => exact absurd rfl hane
    | cons a as' => exact ⟨a, as', rfl⟩
  rw [List.all_cons, Bool.and_eq_true] at had
  have hub : ∀ c ∈ (a :: as') ++ '-' :: '-' :: bs, c.isDigit = true ∨ c = '-' := by
    intro c hc
    rcases List.mem_append.mp hc with h | h
    · rcases List.mem_cons.mp h with h | h
      · exact Or.inl (h ▸ had.1)
      · exact Or.inl (List.all_eq_true.mp had.2 c h)
    · rcases List.mem_cons.mp h with h | h
      · exact Or.inr h
      · rcases List.mem_cons.mp h with h | h
        · exact Or.inr h
        · exact Or.inl (List.all_eq_true.mp hbd c h)
  have hts : '~' ∉ (a :: as') ++ '-' :: '-' :: bs := by
    intro hmem
    rcases hub '~' hmem with h | h
    · exact absurd h (by decide)
    · exact absurd h (by decide)
  have h1 : numberTest ((a :: as') ++ '-' :: '-' :: bs) = false := by
    have hall : ((a :: as') ++ '-' :: '-' :: bs).all Char.isDigit = false := by
      rw [List.all_append]
      simp
    have ha : (a == '-') = false := by
      rw [beq_eq_false_iff_ne]
      intro he
      rw [he] at had
      exact absurd had.1 (by decide)
    rw [List.cons_append]
    simp only [numberTest, ha]
    rw [if_neg (by simp)]
    unfold digits1
    rw [← List.cons_append, hall]
    simp
  have h2 : min2numTest ((a :: as') ++ '-' :: '-' :: bs) = false := by
    have ha : (a == '~') = false := by
      rw [beq_eq_false_iff_ne]
      intro he
      rw [he] at had
      exact absurd had.1 (by decide)
    rw [List.cons_append]
    simp [min2numTest, ha]
  have h3 : num2maxTest ((a :: as') ++ '-' :: '-' :: bs) = false := by
    have hlast : (((a :: as') ++ '-' :: '-' :: bs).getLastD ' ').isDigit = true := by
      rw [getLastD_append_right _ _ (by simp) ' ', List.getLastD_cons,
          List.getLastD_cons]
      exact digits1_getLastD bs '-' (by simp [digits1, hbne, hbd])
    have hne : (((a :: as') ++ '-' :: '-' :: bs).getLastD ' ' == '~') = false := by
      rw [beq_eq_false_iff_ne]
      intro he
      rw [he] at hlast
      exact absurd hlast (by decide)
    unfold num2maxTest
    rw [hne, Bool.false_and]
  have h4 : num2numTest ((a :: as') ++ '-' :: '-' :: bs) = false := by
    unfold num2numTest
    rw [splitCh_not_mem '~' _ hts]
  have h5 : numdashnumTest ((a :: as') ++ '-' :: '-' :: bs) = true := by
    have ha : (a == '-') = false := by
      rw [beq_eq_false_iff_ne]
      intro he
      rw [he] at had
      exact absurd had.1 (by decide)
    have hstrip : stripDash ((a :: as') ++ '-' :: '-' :: bs)
        = (a :: as') ++ '-' :: '-' :: bs := by
      rw [List.cons_append]
      simp [stripDash, ha]
    have htw : (((a :: as') ++ '-' :: '-' :: bs).takeWhile Char.isDigit)
        = a :: as' := takeWhile_digits_append _ _ (by simp [had.1, had.2])
    have hdr : ((a :: as') ++ '-' :: '-' :: bs).drop (a :: as').length
        = '-' :: '-' :: bs := List.drop_left _ _
    simp only [numdashnumTest, hstrip, htw]
    rw [show (a :: as').length = (a :: as').length from rfl, hdr]
    simp [numberTest, digits1, hbne, hbd]
  simp only [convertToken, h1, h2, h3, h4, h5]
  rw [if_neg (by simp), if_neg (by simp), if_neg (by simp), if_neg (by simp),
      if_pos trivial]
  have hidx : idxFrom1 '-' ((a :: as') ++ '-' :: '-' :: bs)
      = (a :: as').length := by
    rw [List.cons_append]
    simp only [idxFrom1]
    rw [idxOf_digits_append as' ('-' :: bs) had.2]
    simp
  have htake : ((a :: as') ++ '-' :: '-' :: bs).take (a :: as').length
      = a :: as' := List.take_left _ _
  have hdrop : ((a :: as') ++ '-' :: '-' :: bs).drop ((a :: as').length + 1)
      = '-' :: bs := by
    rw [← List.drop_drop, List.drop_left]
    rfl
  simp only [parser_numdashnum, hidx, htake, hdrop]
  rw [parseNum_digits (a :: as') (by simp) (by simp [had.1, had.2])]
  rw [show parseNum ('-' :: bs) = -(digitsVal bs : Int) by simp [parseNum]]
  exact congrArg some (swap_pair_eq_min_max _ _)

/-- Witness for C10 at the token `1--2`. -/
theorem numdashnum_double_dash_spec_witness :
    convertToken optionsMin optionsMax "1--2".data = some (-2, 1) := by
  have h := numdashnum_double_dash_spec.1 ['1'] ['2'] optionsMin optionsMax
    (by decide) (by decide) (by decide) (by decide)
  simpa using h

end TinyRange
